import Mathlib

/-!
# Verification of the Hacktoberfest explorer core

Shallow embedding of the repository's core logic:

* the GitHub client wrapper (`SearchHacktoberfestReposWithPage`,
  `GetRepositoryIssues`, `calculateRelevance`, `calculateDifficulty`) from
  the `github` package, and
* the bubbletea screen state machine (`Update`, `handleBack`, `handleEnter`,
  `handleRefresh`, `loadRepositoriesPageWithDirection`) from
  `internal/cli/model.go`.

Network calls are the only effects of the client functions; they are modelled
by passing each call's outcome (an `Except`) as an explicit input, so the
embedded functions are the pure rest of the Go code.  Go `int` is modelled as
`Int` (Go `/` on positive operands agrees with Lean's `Int` `/`, both truncate
toward zero); Go pointer fields that may be `nil` are modelled as `Option`.
Timestamps are modelled at day granularity (year, month, day) with a proleptic
Gregorian calendar, because the only use of time in the core is
`UpdatedAt.After(now.AddDate(0, -1, 0))` and day differences; Go's
`time.Date` normalizes out-of-range months and days, which is mirrored by
`dateToDays` below.
-/

/-- A calendar date, proleptic Gregorian, possibly denormalized (the month and
day components may lie outside their usual ranges, exactly as the arguments of
Go's `time.Date`, which normalizes them: for example February 31 converts to
March 3 in a non-leap year). -/
structure Date where
  year : Int
  month : Int
  day : Int
deriving DecidableEq

/-- Go's month normalization in `time.Date`: shift out-of-range months into
`[1, 12]`, carrying whole years (floor semantics, as in Go's `norm`). -/
def normYM (y m : Int) : Int × Int :=
  (y + (m - 1).fdiv 12, (m - 1).emod 12 + 1)

/-- Days since 1970-01-01 of the civil date `(y, m, d)` with `m ∈ [1, 12]` and
`d` unconstrained (the formula is linear in `d`, so day overflow normalizes
exactly as Go's `time.Date` does). Standard civil-from-days arithmetic. -/
def daysFromCivil (y m d : Int) : Int :=
  let y' := if m ≤ 2 then y - 1 else y
  let era := y'.fdiv 400
  let yoe := y' - era * 400
  let mp := (m + 9).emod 12
  let doy := (153 * mp + 2).fdiv 5 + d - 1
  let doe := yoe * 365 + yoe.fdiv 4 - yoe.fdiv 100 + doy
  era * 146097 + doe - 719468

/-- Absolute day number of a (possibly denormalized) date. -/
def dateToDays (t : Date) : Int :=
  let p := normYM t.year t.month
  daysFromCivil p.1 p.2 t.day

/-- Go's `t.AddDate(0, n, 0)`: add `n` months, deferring normalization to
`dateToDays` (sound because `time.Date` maps the denormalized components to
the same instant). -/
def addMonths (t : Date) (n : Int) : Date :=
  { t with month := t.month + n }

/-- Go's `time.Time.After` at day granularity: strictly later. -/
def dateAfter (a b : Date) : Bool :=
  dateToDays b < dateToDays a

/-- Go's `strings.Contains(s, pat)` on Unicode scalar lists: `pat` occurs as a
contiguous substring of `s` (the empty pattern always occurs). `leadsList p s`
holds when `p` is an initial run of `s`. -/
def leadsList : List Char → List Char → Bool
  | [], _ => true
  | _ :: _, [] => false
  | p :: ps, c :: cs => p == c && leadsList ps cs

/-- `strings.Contains(s, pat)`. -/
def strContains (s pat : String) : Bool :=
  (List.range (s.data.length + 1)).any (fun i => leadsList pat.data (s.data.drop i))

/-- Go's `strings.ToLower`, character by character (`Char.toLower` folds the
ASCII range, which is all the code's label and language comparisons rely on). -/
def toLowerStr (s : String) : String :=
  ⟨s.data.map Char.toLower⟩

/-- A raw repository as returned by the search API: the fields of
`github.Repository` read by the core. Pointer fields that the code
nil-checks are `Option`; `Owner.Login` and `Name` are dereferenced
unconditionally by the code, so they are plain strings. -/
structure RawRepo where
  owner : String
  name : String
  stargazersCount : Option Int
  archived : Option Bool
  language : Option String
  updatedAt : Option Date
deriving DecidableEq

/-- The wrapper `github.Repository` of the source: the raw repository plus its
derived `RelevanceScore`. -/
structure Repository where
  raw : RawRepo
  relevanceScore : Int
deriving DecidableEq

/-- `calculateRelevance` from the `github` package, as a pure function of the
repository fields, the preferred languages and the current time (the source
reads `time.Now()`; here `now` is a parameter):

* stars contribute `min(100, stars/10)` when positive (nil or non-positive
  stars contribute 0);
* `+20` when `UpdatedAt.After(now.AddDate(0, -1, 0))`, i.e. strictly after
  one calendar month before `now`;
* `+50` when the repository language case-insensitively equals some preferred
  language (the source breaks at the first match, so at most once). -/
def calculateRelevance (raw : RawRepo) (preferredLanguages : List String)
    (now : Date) : Int :=
  let score : Int :=
    match raw.stargazersCount with
    | some stars => if 0 < stars then min 100 (stars / 10) else 0
    | none => 0
  let score := score +
    match raw.updatedAt with
    | some u => if dateAfter u (addMonths now (-1)) then 20 else 0
    | none => 0
  let score := score +
    match raw.language with
    | some lang =>
      let repoLang := toLowerStr lang
      if preferredLanguages.any (fun p => toLowerStr p == repoLang) then 50 else 0
    | none => 0
  score

/-- One step of the label `switch` in `calculateDifficulty`: the Go `switch`
takes the first matching case, on the lower-cased label name. -/
def labelStep (score : Int) (label : String) : Int :=
  let l := toLowerStr label
  if strContains l "good first issue" || strContains l "beginner" ||
      strContains l "easy" then 20
  else if strContains l "help wanted" then min score 40
  else if strContains l "hard" || strContains l "difficult" ||
      strContains l "expert" then 80
  else if strContains l "bug" then score + 10
  else if strContains l "feature" then score + 5
  else score

/-- `calculateDifficulty` from the `github` package, as a function of the
issue's label names (in API order) and its `Comments` pointer. -/
def calculateDifficulty (labels : List String) (comments : Option Int) : Int :=
  let score := labels.foldl labelStep 50
  let score :=
    match comments with
    | some c => if 10 < c then score + 15 else if c < 3 then score - 10 else score
    | none => score
  max 10 (min 100 score)

/-! ## The search aggregator (`SearchHacktoberfestReposWithPage`) -/

/-- The dedup key built by the source: `fmt.Sprintf("%s/%s", *Owner.Login, *Name)`
(note: exact strings, no case folding). -/
def repoKey (raw : RawRepo) : String :=
  raw.owner ++ "/" ++ raw.name

/-- Whether the identity-keyed map already holds `k`. The Go `repoMap` is a
`map[string]*Repository`; it is modelled as an insertion-ordered association
list (Go map iteration order is unspecified; insertion order is the reading
most favorable to the spec's stability claim). -/
def containsKey (acc : List (String × Repository)) (k : String) : Bool :=
  acc.any (fun p => p.1 == k)

/-- The per-repository body of the inner `for _, repo := range result.Repositories`
loop: skip when the star count is nil or below `minStars`, skip archived
repositories, skip keys already present (first occurrence wins), otherwise
score the repository and insert it. -/
def processRepo (preferredLanguages : List String) (minStars : Int) (now : Date)
    (acc : List (String × Repository)) (raw : RawRepo) :
    List (String × Repository) :=
  match raw.stargazersCount with
  | none => acc
  | some stars =>
    if minStars ≤ stars then
      let k := repoKey raw
      if raw.archived.getD false then acc
      else if containsKey acc k then acc
      else acc ++ [(k, { raw := raw, relevanceScore := calculateRelevance raw preferredLanguages now })]
    else acc

/-- All repositories of one per-language response, folded into the map. -/
def processRepos (preferredLanguages : List String) (minStars : Int) (now : Date)
    (acc : List (String × Repository)) (raws : List RawRepo) :
    List (String × Repository) :=
  raws.foldl (processRepo preferredLanguages minStars now) acc

/-- The per-language loop of `SearchHacktoberfestReposWithPage`. Each element
of `queryOutcomes` is the outcome of one per-language search call (the network
is the only effect, passed as data). A failed query is skipped with
`continue`; after a successful query the loop stops as soon as the merged map
has reached `maxResults` entries. -/
def searchLoop (preferredLanguages : List String) (minStars : Int)
    (maxResults : Nat) (now : Date) (acc : List (String × Repository)) :
    List (Except String (List RawRepo)) → List (String × Repository)
  | [] => acc
  | o :: rest =>
    match o with
    | .error _ => searchLoop preferredLanguages minStars maxResults now acc rest
    | .ok raws =>
      let acc' := processRepos preferredLanguages minStars now acc raws
      if maxResults ≤ acc'.length then acc'
      else searchLoop preferredLanguages minStars maxResults now acc' rest

/-- The inner `for j := i+1; ...` pass of the source's O(n²) exchange sort,
in list form: `x` is the element currently at position `i`, the list holds the
positions after it. Whenever a strictly higher-scored `y` is met the two are
swapped (`allRepos[i], allRepos[j] = allRepos[j], allRepos[i]`): the carried
front element becomes `y` and the old front `x` is left behind at position
`j`. Returns the final front element and the trailing positions. -/
def selectMax : Repository → List Repository → Repository × List Repository
  | x, [] => (x, [])
  | x, y :: ys =>
    if x.relevanceScore < y.relevanceScore then
      let p := selectMax y ys
      (p.1, x :: p.2)
    else
      let p := selectMax x ys
      (p.1, y :: p.2)

/-- The outer `for i := 0; ...` loop of the exchange sort: run the inner pass
at position `i`, then continue on the positions after `i` (the inner pass only
writes positions `≥ i`). Structural fuel keeps the definition kernel-reducible;
`sortPass` supplies fuel equal to the list length, which always suffices
because the inner pass preserves length. -/
def sortPassAux : Nat → List Repository → List Repository
  | 0, _ => []
  | _, [] => []
  | n + 1, x :: xs =>
    let p := selectMax x xs
    p.1 :: sortPassAux n p.2

/-- The source's sort of `allRepos` by `RelevanceScore`, highest first. -/
def sortPass (l : List Repository) : List Repository :=
  sortPassAux l.length l

/-- The value of `SearchHacktoberfestReposWithPage`: the repository list, the
global total estimate, and the returned error (always `nil` in the source). -/
structure SearchOutcome where
  repos : List Repository
  totalAvailable : Int
  error : Option String
deriving DecidableEq

/-- The tail of `SearchHacktoberfestReposWithPage`: the merged map is
converted to a slice (insertion order, see `containsKey`), sorted by score
descending with the exchange sort, and truncated to `maxResults`
(`allRepos = allRepos[:maxResults]` when longer). -/
def finalRepos (maxResults : Nat) (repoMap : List (String × Repository)) :
    List Repository :=
  let allRepos := repoMap.map (fun p => p.2)
  let sorted := sortPass allRepos
  if maxResults < sorted.length then sorted.take maxResults else sorted

/-- `SearchHacktoberfestReposWithPage` with its network calls passed as data:
`globalOutcome` is the outcome of the lightweight unfiltered count query
(`Total` is a pointer, hence `Option Int`), and `queryOutcomes` are the
outcomes of the per-language queries, in language order. An empty language
list is replaced by the single empty-string language, which is also the
preference list passed to the scorer. On a failed global query the estimate
stays 0 and processing continues; the repository list is built by the
per-language loop and `finalRepos`, and the returned error is always `nil`. -/
def searchHacktoberfestReposWithPage (minStars : Int) (languages : List String)
    (maxResults : Nat) (now : Date)
    (globalOutcome : Except String (Option Int))
    (queryOutcomes : List (Except String (List RawRepo))) : SearchOutcome :=
  let prefs := if languages.isEmpty then [""] else languages
  let totalAvailable : Int :=
    match globalOutcome with
    | .error _ => 0
    | .ok none => 0
    | .ok (some t) => t
  let repoMap := searchLoop prefs minStars maxResults now [] queryOutcomes
  { repos := finalRepos maxResults repoMap
    totalAvailable := totalAvailable
    error := none }

/-! ## The issues fetcher (`GetRepositoryIssues`) -/

/-- A raw item of the issues listing: the fields of `github.Issue` read by the
core. `PullRequestLinks != nil` marks the item as a pull request. -/
structure RawIssue where
  number : Int
  title : String
  labels : List String
  comments : Option Int
  isPullRequest : Bool
deriving DecidableEq

/-- The wrapper `github.Issue` of the source: the raw item plus its derived
`DifficultyScore`. -/
structure Issue where
  raw : RawIssue
  difficultyScore : Int
deriving DecidableEq

/-- `IssueStats` of the source. `LabelCounts` is a Go map modelled as an
insertion-ordered association list. -/
structure IssueStats where
  issues : List Issue
  labelCounts : List (String × Nat)
  totalIssues : Nat
deriving DecidableEq

/-- Increment the count of lower-cased label `k` (Go `labelCounts[labelName]++`). -/
def bumpLabel (m : List (String × Nat)) (k : String) : List (String × Nat) :=
  if m.any (fun p => p.1 == k) then
    m.map (fun p => if p.1 == k then (p.1, p.2 + 1) else p)
  else
    m ++ [(k, 1)]

/-- The body of the item loop in `GetRepositoryIssues`: pull requests are
skipped; every other item is scored, appended, and its lower-cased labels are
counted. -/
def processIssue (st : List Issue × List (String × Nat)) (it : RawIssue) :
    List Issue × List (String × Nat) :=
  if it.isPullRequest then st
  else
    let i : Issue := { raw := it, difficultyScore := calculateDifficulty it.labels it.comments }
    (st.1 ++ [i], it.labels.foldl (fun m l => bumpLabel m (toLowerStr l)) st.2)

/-- The successful path of `GetRepositoryIssues`, applied to the items the API
returned (a failed call returns the error unchanged and reaches none of this,
so only the success path is embedded). `TotalIssues` is `len(result)`. -/
def getRepositoryIssues (items : List RawIssue) : IssueStats :=
  let st := items.foldl processIssue ([], [])
  { issues := st.1, labelCounts := st.2, totalIssues := st.1.length }

/-! ## The screen state machine (`internal/cli/model.go`) -/

/-- The `screen` enumeration of `model.go`. -/
inductive ScreenName
  | welcome
  | repoList
  | issueList
  | issueDetail
deriving DecidableEq

/-- The key bindings of `model.go` (`up/k`, `down/j`, `left/h`, `right/l`,
`enter`, `esc/q` = back, `ctrl+c` = quit, `r` = refresh); `other` stands for
any unbound key. -/
inductive KeyKind
  | up
  | down
  | left
  | right
  | enter
  | back
  | quit
  | refresh
  | other
deriving DecidableEq

/-- The commands a transition may dispatch: `tea.Quit`, a repository page
fetch (`loadRepositoriesPageWithDirection`), or an issue fetch (`loadIssues`). -/
inductive Cmd
  | quit
  | loadReposPage (page : Int) (resetToFirst : Bool)
  | loadIssues (repo : Repository)
deriving DecidableEq

/-- The configuration fields the model reads. -/
structure Config where
  preferredLanguages : List String
  maxRepos : Int
  maxIssuesPerRepo : Int
deriving DecidableEq

/-- A `bubbles` list component, abstracted to its items and cursor index
(`Select` sets the cursor, `SelectedItem` reads the item under it). -/
structure ListComp (α : Type) where
  items : List α
  cursor : Nat
deriving DecidableEq

/-- The cursor moves of the `bubbles` list on up/down keys (clamped); every
other message leaves the component unchanged (the abstraction of its
internal behavior used here). -/
def listCompKey (l : ListComp α) (k : KeyKind) : ListComp α :=
  match k with
  | .up => { l with cursor := l.cursor - 1 }
  | .down => { l with cursor := min (l.cursor + 1) (l.items.length - 1) }
  | _ => l

/-- The `Model` of `model.go` (presentation-only fields such as styles and
titles are omitted; `error` keeps the message text). -/
structure Model where
  config : Config
  currentScreen : ScreenName
  repos : List Repository
  issues : List Issue
  labelStats : List (String × Nat)
  selectedRepo : Option Repository
  selectedIssue : Option Issue
  currentPage : Int
  totalRepos : Int
  hasMorePages : Bool
  loading : Bool
  error : Option String
  width : Int
  height : Int
  repoList : ListComp Repository
  issueList : ListComp Issue
deriving DecidableEq

/-- The messages consumed by `Update`. -/
inductive Msg
  | key (k : KeyKind)
  | windowSize (w h : Int)
  | reposLoaded (repos : List Repository) (totalRepoCnt : Int)
      (currentPage : Int) (hasMore : Bool) (resetToFirst : Bool)
  | issuesLoaded (issues : List Issue) (labelStats : List (String × Nat))
  | errorMsg (e : String)
deriving DecidableEq

/-- `NewModel`: welcome screen, page 1, empty lists. -/
def newModel (cfg : Config) : Model where
  config := cfg
  currentScreen := .welcome
  repos := []
  issues := []
  labelStats := []
  selectedRepo := none
  selectedIssue := none
  currentPage := 1
  totalRepos := 0
  hasMorePages := false
  loading := false
  error := none
  width := 0
  height := 0
  repoList := ⟨[], 0⟩
  issueList := ⟨[], 0⟩

/-- `handleBack`: steps the screen one level up; nothing else changes and no
command is dispatched. -/
def handleBack (m : Model) : Model × Option Cmd :=
  let m' :=
    match m.currentScreen with
    | .repoList => { m with currentScreen := .welcome }
    | .issueList => { m with currentScreen := .repoList }
    | .issueDetail => { m with currentScreen := .issueList }
    | .welcome => m
  (m', none)

/-- `handleEnter`: from the welcome screen start the page-1 search; on a
repository or issue list, a confirm on an empty list is a no-op, otherwise the
item under the cursor is selected (an out-of-range cursor yields no item and
falls through, as the Go type assertion on a nil `SelectedItem()` does). -/
def handleEnter (m : Model) : Model × Option Cmd :=
  match m.currentScreen with
  | .welcome =>
    ({ m with loading := true }, some (.loadReposPage 1 true))
  | .repoList =>
    if m.repoList.items.isEmpty then (m, none)
    else
      match m.repoList.items.get? m.repoList.cursor with
      | some r =>
        ({ m with selectedRepo := some r, loading := true }, some (.loadIssues r))
      | none => (m, none)
  | .issueList =>
    if m.issueList.items.isEmpty then (m, none)
    else
      match m.issueList.items.get? m.issueList.cursor with
      | some i =>
        ({ m with selectedIssue := some i, currentScreen := .issueDetail }, none)
      | none => (m, none)
  | .issueDetail => (m, none)

/-- `handleRefresh`: re-dispatch the current page on the repository list, the
issue fetch on the issue list (when a repository is selected). -/
def handleRefresh (m : Model) : Model × Option Cmd :=
  match m.currentScreen with
  | .repoList =>
    ({ m with loading := true }, some (.loadReposPage m.currentPage true))
  | .issueList =>
    match m.selectedRepo with
    | some r => ({ m with loading := true }, some (.loadIssues r))
    | none => (m, none)
  | _ => (m, none)

/-- The trailing section of `Update`, reached by every message that was not
returned early: the list component of the current screen consumes the message
(only up/down keys have a modelled effect). -/
def trailingUpdate (m : Model) (msg : Msg) : Model × Option Cmd :=
  match m.currentScreen with
  | .repoList =>
    match msg with
    | .key k => ({ m with repoList := listCompKey m.repoList k }, none)
    | _ => (m, none)
  | .issueList =>
    match msg with
    | .key k => ({ m with issueList := listCompKey m.issueList k }, none)
    | _ => (m, none)
  | _ => (m, none)

/-- `Update` of `model.go`. Every key press while `loading` is true returns
the model unchanged with no command — including quit. When not loading, quit,
back, enter and refresh return early; left/right page the repository list only
under their guards; all remaining keys reach the trailing list update. The
completion messages (`reposLoadedMsg`, `issuesLoadedMsg`, `errorMsg`) are
applied unconditionally. -/
def update (m : Model) (msg : Msg) : Model × Option Cmd :=
  match msg with
  | .windowSize w h =>
    trailingUpdate { m with width := w, height := h } msg
  | .key k =>
    if m.loading then (m, none)
    else
      match k with
      | .quit => (m, some .quit)
      | .back => handleBack m
      | .left =>
        if m.currentScreen = .repoList ∧ 1 < m.currentPage then
          ({ m with loading := true, currentPage := m.currentPage - 1 },
            some (.loadReposPage (m.currentPage - 1) false))
        else trailingUpdate m msg
      | .right =>
        if m.currentScreen = .repoList ∧ m.hasMorePages then
          ({ m with loading := true, currentPage := m.currentPage + 1 },
            some (.loadReposPage (m.currentPage + 1) true))
        else trailingUpdate m msg
      | .enter => handleEnter m
      | .refresh => handleRefresh m
      | _ => trailingUpdate m msg
  | .reposLoaded repos total page hasMore resetToFirst =>
    let m := { m with
      loading := false
      repos := repos
      currentPage := page
      totalRepos := total
      hasMorePages := hasMore }
    let rl := { m.repoList with items := repos }
    let rl :=
      if repos.isEmpty then rl
      else if resetToFirst then { rl with cursor := 0 }
      else { rl with cursor := repos.length - 1 }
    trailingUpdate { m with repoList := rl, currentScreen := .repoList } msg
  | .issuesLoaded issues labelStats =>
    let m := { m with
      loading := false
      issues := issues
      labelStats := labelStats
      issueList := { m.issueList with items := issues } }
    trailingUpdate { m with currentScreen := .issueList } msg
  | .errorMsg e =>
    trailingUpdate { m with loading := false, error := some e } msg

/-- The `hasMore` computation inside `loadRepositoriesPageWithDirection`:
the fetch filled a whole page (`len(repos) == MaxRepos`) and
`page*MaxRepos < total`. -/
def computeHasMore (cfg : Config) (page : Int) (numReturned : Nat)
    (total : Int) : Bool :=
  (numReturned : Int) == cfg.maxRepos && page * cfg.maxRepos < total

/-- The message built by the command of `loadRepositoriesPageWithDirection`,
given the outcome of the search call it performs. -/
def runLoadRepos (cfg : Config) (page : Int) (resetToFirst : Bool)
    (outcome : Except String (List Repository × Int)) : Msg :=
  match outcome with
  | .error e => .errorMsg e
  | .ok (repos, total) =>
    .reposLoaded repos total page (computeHasMore cfg page repos.length total)
      resetToFirst

/-! ## Definitions taken from the spec's words, for comparison with the code

Each of the following is named for the claim it formalizes and is written
from the claim's wording, to be compared against the source-derived
definitions above. -/

/-- Claim C3's description of `scoreIssue`'s per-label rule: on the
lower-cased label, the first matching category applies — overwrite to 20 for
good-first-issue/beginner/easy, `min(score, 40)` for help-wanted, overwrite to
80 for hard/difficult/expert, `+10` for bug, `+5` for feature. -/
def scoreIssueClaimRule (score : Int) (label : String) : Int :=
  let l := toLowerStr label
  if strContains l "good first issue" || strContains l "beginner" ||
      strContains l "easy" then 20
  else if strContains l "help wanted" then min score 40
  else if strContains l "hard" || strContains l "difficult" ||
      strContains l "expert" then 80
  else if strContains l "bug" then score + 10
  else if strContains l "feature" then score + 5
  else score

/-- Claim C3's `scoreIssue`: start at 50, apply the label rules in order, then
`+15` when comments > 10 and `−10` when comments < 3, and clamp the result to
the interval `[10, 100]`. -/
def scoreIssueClaim (labels : List String) (comments : Option Int) : Int :=
  let base := labels.foldl scoreIssueClaimRule 50
  let adjusted :=
    match comments with
    | some c => if c > 10 then base + 15 else if c < 3 then base - 10 else base
    | none => base
  if adjusted < 10 then 10 else if adjusted > 100 then 100 else adjusted

/-- Star base of the relevance score: `min(100, stars/10)` for positive star
counts, 0 otherwise (the source only adds the term when `stars > 0`). -/
def starsBase (stars : Option Int) : Int :=
  match stars with
  | some s => if s > 0 then min 100 (s / 10) else 0
  | none => 0

/-- Recency bonus as the code computes it: `+20` when `updatedAt` is strictly
after `now.AddDate(0, -1, 0)`, one calendar month before `now`. -/
def monthRecencyBonus (upd : Option Date) (now : Date) : Int :=
  match upd with
  | some u => if dateAfter u (addMonths now (-1)) then 20 else 0
  | none => 0

/-- Language bonus: `+50` when the repository language case-insensitively
equals some preferred language, added at most once. -/
def languageBonus (lang : Option String) (prefs : List String) : Int :=
  match lang with
  | some l =>
    let repoLang := toLowerStr l
    if prefs.any (fun p => toLowerStr p == repoLang) then 50 else 0
  | none => 0

/-- Claim C4 as amended: the relevance score is the star base plus the
calendar-month recency bonus plus the language bonus. -/
def scoreRepositoryAmended (raw : RawRepo) (prefs : List String) (now : Date) : Int :=
  starsBase raw.stargazersCount + monthRecencyBonus raw.updatedAt now +
    languageBonus raw.language prefs

/-- Claim C4 exactly as worded: `min(100, stars/10)` plus 20 when `updatedAt`
is within the last 30 days of `now`, plus the language bonus. (The 30-day
reading of the recency window is what the counterexample below refutes.) -/
def scoreRepositoryClaimC4 (raw : RawRepo) (prefs : List String) (now : Date) : Int :=
  (match raw.stargazersCount with
   | some s => min 100 (s / 10)
   | none => 0)
  + (match raw.updatedAt with
     | some u =>
       if 0 ≤ dateToDays now - dateToDays u ∧ dateToDays now - dateToDays u ≤ 30
       then 20 else 0
     | none => 0)
  + languageBonus raw.language prefs

/-- Claim C7 as amended: the screen `handleBack` moves to (one level up the
Welcome → RepoList → IssueList → IssueDetail stack). -/
def backTarget : ScreenName → ScreenName
  | .welcome => .welcome
  | .repoList => .welcome
  | .issueList => .repoList
  | .issueDetail => .issueList

/-- Whether a per-language query outcome is a failure. -/
def isErrOutcome : Except String (List RawRepo) → Bool
  | .error _ => true
  | .ok _ => false

/-- Invariant of the dedup map: its keys are pairwise distinct and each entry
is keyed by its repository's `repoKey`. -/
def goodAcc (acc : List (String × Repository)) : Prop :=
  (acc.map (fun p => p.1)).Nodup ∧ ∀ p ∈ acc, p.1 = repoKey p.2.raw

/-! ## Lemmas about the exchange sort -/

open List

theorem selectMax_perm (x : Repository) (l : List Repository) :
    (selectMax x l).1 :: (selectMax x l).2 ~ x :: l := by
  induction l generalizing x with
  | nil => simp [selectMax]
  | cons y ys ih =>
    by_cases h : x.relevanceScore < y.relevanceScore
    · simp only [selectMax, if_pos h]
      calc (selectMax y ys).1 :: x :: (selectMax y ys).2
          ~ x :: (selectMax y ys).1 :: (selectMax y ys).2 :=
            List.Perm.swap x (selectMax y ys).1 (selectMax y ys).2
        _ ~ x :: y :: ys := (ih y).cons x
    · simp only [selectMax, if_neg h]
      calc (selectMax x ys).1 :: y :: (selectMax x ys).2
          ~ y :: (selectMax x ys).1 :: (selectMax x ys).2 :=
            List.Perm.swap y (selectMax x ys).1 (selectMax x ys).2
        _ ~ y :: x :: ys := (ih x).cons y
        _ ~ x :: y :: ys := List.Perm.swap x y ys

theorem selectMax_length (x : Repository) (l : List Repository) :
    (selectMax x l).2.length = l.length := by
  have h := (selectMax_perm x l).length_eq
  simpa using h

theorem le_selectMax_fst (x : Repository) (l : List Repository) :
    x.relevanceScore ≤ (selectMax x l).1.relevanceScore := by
  induction l generalizing x with
  | nil => simp [selectMax]
  | cons y ys ih =>
    by_cases h : x.relevanceScore < y.relevanceScore
    · simp only [selectMax, if_pos h]
      exact le_trans (le_of_lt h) (ih y)
    · simp only [selectMax, if_neg h]
      exact ih x

theorem selectMax_le (x : Repository) (l : List Repository) :
    ∀ z ∈ (selectMax x l).2, z.relevanceScore ≤ (selectMax x l).1.relevanceScore := by
  induction l generalizing x with
  | nil => simp [selectMax]
  | cons y ys ih =>
    intro z hz
    by_cases h : x.relevanceScore < y.relevanceScore
    · simp only [selectMax, if_pos h] at hz ⊢
      rcases List.mem_cons.mp hz with rfl | hz
      · exact le_trans (le_of_lt h) (le_selectMax_fst y ys)
      · exact ih y z hz
    · simp only [selectMax, if_neg h] at hz ⊢
      rcases List.mem_cons.mp hz with rfl | hz
      · exact le_trans (not_lt.mp h) (le_selectMax_fst x ys)
      · exact ih x z hz

theorem sortPassAux_perm :
    ∀ (n : Nat) (l : List Repository), l.length ≤ n → sortPassAux n l ~ l := by
  intro n
  induction n with
  | zero =>
    intro l h
    have hl : l = [] := List.eq_nil_of_length_eq_zero (Nat.le_zero.mp h)
    subst hl
    simp [sortPassAux]
  | succ n ih =>
    intro l h
    cases l with
    | nil => simp [sortPassAux]
    | cons x xs =>
      simp only [sortPassAux]
      simp only [List.length_cons] at h
      have h2 : (selectMax x xs).2.length ≤ n := by
        rw [selectMax_length]
        omega
      calc (selectMax x xs).1 :: sortPassAux n (selectMax x xs).2
          ~ (selectMax x xs).1 :: (selectMax x xs).2 := (ih _ h2).cons _
        _ ~ x :: xs := selectMax_perm x xs

theorem sortPassAux_sorted :
    ∀ (n : Nat) (l : List Repository), l.length ≤ n →
      (sortPassAux n l).Pairwise
        (fun a b => b.relevanceScore ≤ a.relevanceScore) := by
  intro n
  induction n with
  | zero =>
    intro l h
    have hl : l = [] := List.eq_nil_of_length_eq_zero (Nat.le_zero.mp h)
    subst hl
    simp [sortPassAux]
  | succ n ih =>
    intro l h
    cases l with
    | nil => simp [sortPassAux]
    | cons x xs =>
      simp only [sortPassAux]
      simp only [List.length_cons] at h
      have h2 : (selectMax x xs).2.length ≤ n := by
        rw [selectMax_length]
        omega
      refine List.Pairwise.cons ?_ (ih _ h2)
      intro b hb
      have hmem : b ∈ (selectMax x xs).2 :=
        ((sortPassAux_perm n _ h2).mem_iff).mp hb
      exact selectMax_le x xs b hmem

theorem sortPass_perm (l : List Repository) : sortPass l ~ l :=
  sortPassAux_perm l.length l (Nat.le_refl _)

theorem sortPass_sorted (l : List Repository) :
    (sortPass l).Pairwise (fun a b => b.relevanceScore ≤ a.relevanceScore) :=
  sortPassAux_sorted l.length l (Nat.le_refl _)

theorem finalRepos_eq (mr : Nat) (acc : List (String × Repository)) :
    finalRepos mr acc =
      if mr < (sortPass (acc.map (fun p => p.2))).length
      then (sortPass (acc.map (fun p => p.2))).take mr
      else sortPass (acc.map (fun p => p.2)) := rfl

theorem finalRepos_sorted (mr : Nat) (acc : List (String × Repository)) :
    (finalRepos mr acc).Pairwise
      (fun a b => b.relevanceScore ≤ a.relevanceScore) := by
  rw [finalRepos_eq]
  split
  · exact (sortPass_sorted _).sublist (List.take_sublist _ _)
  · exact sortPass_sorted _

theorem finalRepos_length_le (mr : Nat) (acc : List (String × Repository)) :
    (finalRepos mr acc).length ≤ mr := by
  rw [finalRepos_eq]
  split
  · simp
  · omega

/-! ## Lemmas about the dedup map and the per-language loop -/

theorem containsKey_false_not_mem {acc : List (String × Repository)} {k : String}
    (h : containsKey acc k = false) : k ∉ acc.map (fun p => p.1) := by
  intro hk
  rcases List.mem_map.mp hk with ⟨p, hp, hpk⟩
  have : containsKey acc k = true :=
    List.any_eq_true.mpr ⟨p, hp, by simp [hpk]⟩
  simp [this] at h

theorem processRepo_good {prefs : List String} {ms : Int} {now : Date}
    {acc : List (String × Repository)} (raw : RawRepo) (h : goodAcc acc) :
    goodAcc (processRepo prefs ms now acc raw) := by
  rcases hs : raw.stargazersCount with _ | stars
  · simpa only [processRepo, hs] using h
  · simp only [processRepo, hs]
    split_ifs with h1 h2 h3
    · exact h
    · exact h
    · have hnotmem : repoKey raw ∉ acc.map (fun p => p.1) :=
        containsKey_false_not_mem (Bool.eq_false_iff.mpr h3)
      constructor
      · rw [List.map_append]
        have hperm : (acc.map (fun p => p.1)) ++ [repoKey raw] ~
            repoKey raw :: acc.map (fun p => p.1) :=
          List.perm_append_singleton _ _
        exact hperm.nodup_iff.mpr (List.nodup_cons.mpr ⟨hnotmem, h.1⟩)
      · intro p hp
        rcases List.mem_append.mp hp with hp | hp
        · exact h.2 p hp
        · simp only [List.mem_singleton] at hp
          subst hp
          rfl
    · exact h

theorem processRepos_good {prefs : List String} {ms : Int} {now : Date} :
    ∀ (raws : List RawRepo) (acc : List (String × Repository)),
      goodAcc acc → goodAcc (processRepos prefs ms now acc raws) := by
  intro raws
  induction raws with
  | nil => intro acc h; exact h
  | cons raw rest ih =>
    intro acc h
    exact ih _ (processRepo_good raw h)

theorem searchLoop_good {prefs : List String} {ms : Int} {mr : Nat} {now : Date} :
    ∀ (outs : List (Except String (List RawRepo)))
      (acc : List (String × Repository)),
      goodAcc acc → goodAcc (searchLoop prefs ms mr now acc outs) := by
  intro outs
  induction outs with
  | nil => intro acc h; exact h
  | cons o rest ih =>
    intro acc h
    cases o with
    | error e => exact ih acc h
    | ok raws =>
      simp only [searchLoop]
      split
      · exact processRepos_good raws acc h
      · exact ih _ (processRepos_good raws acc h)

theorem finalRepos_keys_nodup (mr : Nat) {acc : List (String × Repository)}
    (h : goodAcc acc) :
    ((finalRepos mr acc).map (fun r => repoKey r.raw)).Nodup := by
  have hmapeq : (acc.map (fun p => p.2)).map (fun r => repoKey r.raw) =
      acc.map (fun p => p.1) := by
    rw [List.map_map]
    exact List.map_congr_left (fun p hp => (h.2 p hp).symm)
  have hbase : ((acc.map (fun p => p.2)).map (fun r => repoKey r.raw)).Nodup := by
    rw [hmapeq]; exact h.1
  have hsorted : ((sortPass (acc.map (fun p => p.2))).map
      (fun r => repoKey r.raw)).Nodup :=
    (((sortPass_perm _).map (fun r => repoKey r.raw)).nodup_iff).mpr hbase
  rw [finalRepos_eq]
  split
  · rw [List.map_take]
    exact hsorted.sublist (List.take_sublist _ _)
  · exact hsorted

theorem searchLoop_skip (prefs : List String) (ms : Int) (mr : Nat) (now : Date)
    (e : String) (post : List (Except String (List RawRepo))) :
    ∀ (pre : List (Except String (List RawRepo)))
      (acc : List (String × Repository)),
      searchLoop prefs ms mr now acc (pre ++ .error e :: post) =
        searchLoop prefs ms mr now acc (pre ++ post) := by
  intro pre
  induction pre with
  | nil => intro acc; simp [searchLoop]
  | cons o pre ih =>
    intro acc
    cases o with
    | error e' => simp only [List.cons_append, searchLoop]; exact ih acc
    | ok raws =>
      simp only [List.cons_append, searchLoop]
      split
      · rfl
      · exact ih _

theorem searchLoop_allErr (prefs : List String) (ms : Int) (mr : Nat) (now : Date) :
    ∀ (outs : List (Except String (List RawRepo)))
      (acc : List (String × Repository)),
      outs.all isErrOutcome = true → searchLoop prefs ms mr now acc outs = acc := by
  intro outs
  induction outs with
  | nil => intro acc _; rfl
  | cons o rest ih =>
    intro acc h
    simp only [List.all_cons, Bool.and_eq_true] at h
    cases o with
    | error e => exact ih acc h.2
    | ok raws => simp [isErrOutcome] at h

/-! ## Lemmas about the assembled search and the issues fetcher -/

theorem search_repos_def (ms : Int) (langs : List String) (mr : Nat) (now : Date)
    (g : Except String (Option Int)) (qs : List (Except String (List RawRepo))) :
    (searchHacktoberfestReposWithPage ms langs mr now g qs).repos =
      finalRepos mr
        (searchLoop (if langs.isEmpty then [""] else langs) ms mr now [] qs) := rfl

theorem search_error_none (ms : Int) (langs : List String) (mr : Nat) (now : Date)
    (g : Except String (Option Int)) (qs : List (Except String (List RawRepo))) :
    (searchHacktoberfestReposWithPage ms langs mr now g qs).error = none := rfl

theorem search_keys_nodup (ms : Int) (langs : List String) (mr : Nat) (now : Date)
    (g : Except String (Option Int)) (qs : List (Except String (List RawRepo))) :
    (((searchHacktoberfestReposWithPage ms langs mr now g qs).repos).map
      (fun r => repoKey r.raw)).Nodup := by
  rw [search_repos_def]
  exact finalRepos_keys_nodup mr
    (searchLoop_good qs [] ⟨List.nodup_nil, by simp⟩)

theorem processIssue_fold_noPR :
    ∀ (items : List RawIssue) (st : List Issue × List (String × Nat)),
      (∀ i ∈ st.1, i.raw.isPullRequest = false) →
      ∀ i ∈ (items.foldl processIssue st).1, i.raw.isPullRequest = false := by
  intro items
  induction items with
  | nil => intro st h; exact h
  | cons it rest ih =>
    intro st h
    simp only [List.foldl_cons]
    apply ih
    unfold processIssue
    split
    · exact h
    · rename_i hpr
      intro i hi
      rcases List.mem_append.mp hi with hmem | hmem
      · exact h i hmem
      · simp only [List.mem_singleton] at hmem
        subst hmem
        simpa using hpr

theorem clamp_as_ifs (s : Int) :
    max 10 (min 100 s) = if s < 10 then 10 else if s > 100 then 100 else s := by
  rw [max_def, min_def]
  split_ifs <;> omega

/-! ## Claim theorems -/

/-- C1, counterexample to the claim as stated: the dedup key is the exact
`owner/name` string, not a case-insensitive one. Two per-language queries
returning `Alice/Repo` and `alice/repo` — the same identity when compared
case-insensitively — both survive the merge, so the returned list holds two
entries of that case-insensitive identity instead of exactly one. -/
theorem C1_dedup_counterexample :
    (searchHacktoberfestReposWithPage 0 ["x", "y"] 10 ⟨2023, 10, 11⟩ (.ok none)
      [.ok [⟨"Alice", "Repo", some 5, none, none, none⟩],
       .ok [⟨"alice", "repo", some 5, none, none, none⟩]]).repos.map
        (fun r => (toLowerStr r.raw.owner, toLowerStr r.raw.name))
      = [("alice", "repo"), ("alice", "repo")] := by decide

/-- C1 as amended: with repository identity compared by the exact
(case-sensitive) `owner/name` key, every list returned by
`SearchHacktoberfestReposWithPage` has pairwise-distinct identities, and when
two per-language queries return a repository with the same exact identity the
merged result keeps exactly one entry — the first occurrence, scored at its
own insertion and not re-scored (the kept entry carries the first query's
star count 50, score 5, not the second's 200). -/
theorem C1_dedup_amended :
    (∀ (ms : Int) (langs : List String) (mr : Nat) (now : Date)
        (g : Except String (Option Int))
        (qs : List (Except String (List RawRepo))),
      (((searchHacktoberfestReposWithPage ms langs mr now g qs).repos).map
        (fun r => repoKey r.raw)).Nodup)
    ∧ (searchHacktoberfestReposWithPage 0 ["x", "y"] 10 ⟨2023, 10, 11⟩ (.ok none)
        [.ok [⟨"a", "r", some 50, none, none, none⟩],
         .ok [⟨"a", "r", some 200, none, none, none⟩]]).repos
      = [⟨⟨"a", "r", some 50, none, none, none⟩, 5⟩] :=
  ⟨fun ms langs mr now g qs => search_keys_nodup ms langs mr now g qs, by decide⟩

/-- C2, counterexample to the claim as stated: the exchange sort is not
stable. One query returns, in this insertion order, repositories of owners
`a1`, `b1`, `c1` with relevance scores 1, 1, 3; the returned list is
`c1, b1, a1` — the tied pair `a1`, `b1` comes out in reversed insertion
order (a stable sort would give `c1, a1, b1`). -/
theorem C2_sort_counterexample :
    (searchHacktoberfestReposWithPage 0 ["x"] 10 ⟨2023, 10, 11⟩ (.ok none)
      [.ok [⟨"a1", "r", some 10, none, none, none⟩,
            ⟨"b1", "r", some 19, none, none, none⟩,
            ⟨"c1", "r", some 30, none, none, none⟩]]).repos.map
        (fun r => (r.raw.owner, r.relevanceScore))
      = [("c1", 3), ("b1", 1), ("a1", 1)] := by decide

/-- C2 as amended: every returned list is sorted by `RelevanceScore`
descending and truncated so its length never exceeds `maxResults` — but tie
order among equal scores is not stable (see the counterexample; the Go map
iteration feeding the sort is additionally unordered). In particular, with
`maxResults = 5` and 12 available unique eligible repositories across three
language queries, the result has exactly 5 entries with strictly descending
scores. -/
theorem C2_sort_amended :
    (∀ (ms : Int) (langs : List String) (mr : Nat) (now : Date)
        (g : Except String (Option Int))
        (qs : List (Except String (List RawRepo))),
      ((searchHacktoberfestReposWithPage ms langs mr now g qs).repos).Pairwise
          (fun a b => b.relevanceScore ≤ a.relevanceScore)
        ∧ (searchHacktoberfestReposWithPage ms langs mr now g qs).repos.length ≤ mr)
    ∧ ((searchHacktoberfestReposWithPage 0 ["a", "b", "c"] 5 ⟨2023, 10, 11⟩ (.ok none)
        [.ok [⟨"p1", "r", some 100, none, none, none⟩,
              ⟨"p2", "r", some 90, none, none, none⟩,
              ⟨"p3", "r", some 80, none, none, none⟩,
              ⟨"p4", "r", some 70, none, none, none⟩,
              ⟨"p5", "r", some 60, none, none, none⟩],
         .ok [⟨"p6", "r", some 50, none, none, none⟩,
              ⟨"p7", "r", some 40, none, none, none⟩,
              ⟨"p8", "r", some 30, none, none, none⟩,
              ⟨"p9", "r", some 20, none, none, none⟩,
              ⟨"p10", "r", some 10, none, none, none⟩],
         .ok [⟨"p11", "r", some 200, none, none, none⟩,
              ⟨"p12", "r", some 150, none, none, none⟩]]).repos.length = 5
       ∧ (searchHacktoberfestReposWithPage 0 ["a", "b", "c"] 5 ⟨2023, 10, 11⟩ (.ok none)
        [.ok [⟨"p1", "r", some 100, none, none, none⟩,
              ⟨"p2", "r", some 90, none, none, none⟩,
              ⟨"p3", "r", some 80, none, none, none⟩,
              ⟨"p4", "r", some 70, none, none, none⟩,
              ⟨"p5", "r", some 60, none, none, none⟩],
         .ok [⟨"p6", "r", some 50, none, none, none⟩,
              ⟨"p7", "r", some 40, none, none, none⟩,
              ⟨"p8", "r", some 30, none, none, none⟩,
              ⟨"p9", "r", some 20, none, none, none⟩,
              ⟨"p10", "r", some 10, none, none, none⟩],
         .ok [⟨"p11", "r", some 200, none, none, none⟩,
              ⟨"p12", "r", some 150, none, none, none⟩]]).repos.map
          (fun r => r.relevanceScore) = [10, 9, 8, 7, 6]) := by
  refine ⟨fun ms langs mr now g qs => ⟨?_, ?_⟩, by decide, by decide⟩
  · rw [search_repos_def]
    exact finalRepos_sorted _ _
  · rw [search_repos_def]
    exact finalRepos_length_le _ _

/-- C3: `calculateDifficulty` computes exactly the score the claim describes —
start at 50; per label (lower-cased, substring match, first matching category)
overwrite to 20 for good-first-issue/beginner/easy, `min(score, 40)` for
help-wanted, overwrite to 80 for hard/difficult/expert, `+10` for bug, `+5`
for feature; then `+15` when comments > 10 and `−10` when comments < 3;
clamped to `[10, 100]`. In particular, labels
`{"good first issue", "bug"}` with 1 comment score exactly 20, and no labels
with 5 comments score exactly 50. -/
theorem C3_scoreIssue :
    (∀ (labels : List String) (comments : Option Int),
      calculateDifficulty labels comments = scoreIssueClaim labels comments)
    ∧ calculateDifficulty ["good first issue", "bug"] (some 1) = 20
    ∧ calculateDifficulty [] (some 5) = 50 := by
  refine ⟨?_, by decide, by decide⟩
  intro labels comments
  unfold calculateDifficulty scoreIssueClaim
  exact clamp_as_ifs _

/-- C4, counterexample to the claim as stated: the recency bonus is not "+20
when `updatedAt` is within the last 30 days". With `now` = 2023-03-31 and
`updatedAt` = 2023-03-02 — 29 days earlier, squarely within the last 30
days — the code's cutoff `now.AddDate(0, -1, 0)` normalizes February 31 to
March 3, so the repository gets no bonus: the code scores 0 where the claim's
formula gives 20. -/
theorem C4_relevance_counterexample :
    calculateRelevance ⟨"o", "n", some 0, none, none, some ⟨2023, 3, 2⟩⟩ []
        ⟨2023, 3, 31⟩ = 0
    ∧ scoreRepositoryClaimC4 ⟨"o", "n", some 0, none, none, some ⟨2023, 3, 2⟩⟩ []
        ⟨2023, 3, 31⟩ = 20
    ∧ dateToDays ⟨2023, 3, 31⟩ - dateToDays ⟨2023, 3, 2⟩ = 29 := by decide

/-- C4 as amended: `calculateRelevance` is the pure, deterministic sum of
`min(100, stars/10)` for positive star counts, `+20` when `updatedAt` is
strictly after `now.AddDate(0, -1, 0)` — one calendar month, not 30 days,
before `now` — and `+50` when the language case-insensitively matches a
preferred language (added at most once). In particular a repository with
stars = 0, a matching language and `updatedAt = now` scores exactly 70. -/
theorem C4_relevance_amended :
    (∀ (raw : RawRepo) (prefs : List String) (now : Date),
      calculateRelevance raw prefs now = scoreRepositoryAmended raw prefs now)
    ∧ calculateRelevance ⟨"o", "n", some 0, none, some "Go", some ⟨2023, 10, 11⟩⟩
        ["go"] ⟨2023, 10, 11⟩ = 70 :=
  ⟨fun raw prefs now => rfl, by decide⟩

/-- C5: the `hasMore` flag computed by `loadRepositoriesPageWithDirection` is
true exactly when the fetch returned a full page (`len(repos) == MaxRepos`,
the configured page size) and `currentPage * pageSize < totalAvailableEstimate`;
with page size 20 and estimate 45, a full page at page 2 yields true and a
full page at page 3 yields false. -/
theorem C5_hasMorePages :
    (∀ (cfg : Config) (page : Int) (resetToFirst : Bool)
        (repos : List Repository) (total : Int),
      runLoadRepos cfg page resetToFirst (.ok (repos, total)) =
        .reposLoaded repos total page
          (computeHasMore cfg page repos.length total) resetToFirst)
    ∧ (∀ (cfg : Config) (page : Int) (n : Nat) (total : Int),
      computeHasMore cfg page n total = true ↔
        ((n : Int) = cfg.maxRepos ∧ page * cfg.maxRepos < total))
    ∧ computeHasMore ⟨[], 20, 15⟩ 2 20 45 = true
    ∧ computeHasMore ⟨[], 20, 15⟩ 3 20 45 = false := by
  refine ⟨fun cfg page r repos total => rfl, ?_, by decide, by decide⟩
  intro cfg page n total
  simp [computeHasMore]

/-- C6: evaluation of `Update` at the failing input. In the reachable state
after confirming on the welcome screen (`loading = true`, whose view prints
"Press Ctrl+C to cancel"), the quit key is discarded exactly like every
navigation key: the model is unchanged and no command — in particular no
`tea.Quit` — is dispatched. The claim (and the code's own loading screen)
says quit is always honored; the code suppresses it. -/
theorem C6_quit_suppressed_while_loading :
    let cfg : Config := ⟨["go"], 20, 15⟩
    let m1 := (update (newModel cfg) (.key .enter)).1
    m1.loading = true
    ∧ update m1 (.key .quit) = (m1, none)
    ∧ update m1 (.key .down) = (m1, none)
    ∧ update m1 (.key .enter) = (m1, none) := by decide

/-- C7, counterexample to the claim as stated: back transitions clear no
selection and reset no pagination. In a reachable run, after entering the
issue detail screen (`selectedIssue` set) a back key lands on the issue list
with `selectedIssue` still non-null — violating the claimed invariant — and
a back from the repository list at page 3 returns to the welcome screen with
`currentPage` still 3. -/
theorem C7_back_counterexample :
    let cfg : Config := ⟨["go"], 20, 15⟩
    let rep : Repository := ⟨⟨"own", "nam", some 100, none, some "Go", none⟩, 10⟩
    let iss : Issue := ⟨⟨7, "t", ["bug"], some 0, false⟩, 50⟩
    let m1 := (update (newModel cfg) (.key .enter)).1
    let m2 := (update m1 (.reposLoaded [rep] 1 1 false true)).1
    let m3 := (update m2 (.key .enter)).1
    let m4 := (update m3 (.issuesLoaded [iss] [])).1
    let m5 := (update m4 (.key .enter)).1
    let m6 := (update m5 (.key .back)).1
    let m2p := (update m1 (.reposLoaded [rep] 50 3 false true)).1
    let m7 := (update m2p (.key .back)).1
    m5.currentScreen = .issueDetail ∧ m5.selectedIssue = some iss
    ∧ m6.currentScreen = .issueList ∧ m6.selectedIssue = some iss
    ∧ m7.currentScreen = .welcome ∧ m7.currentPage = 3 := by decide

/-- C7 as amended: a back/cancel transition only moves the screen one level up
the IssueDetail → IssueList → RepoList → Welcome stack and dispatches nothing;
selections (`selectedRepo`, `selectedIssue`), pagination (`currentPage`,
`hasMorePages`) and all loaded data are left untouched, so `selectedIssue`
stays non-null on earlier screens once set (pagination returns to page 1 only
when a fresh page-1 search is dispatched from the welcome screen). -/
theorem C7_back_amended :
    ∀ m : Model,
      (handleBack m).2 = none
      ∧ ((handleBack m).1).currentScreen = backTarget m.currentScreen
      ∧ ((handleBack m).1).selectedRepo = m.selectedRepo
      ∧ ((handleBack m).1).selectedIssue = m.selectedIssue
      ∧ ((handleBack m).1).currentPage = m.currentPage
      ∧ ((handleBack m).1).loading = m.loading
      ∧ ((handleBack m).1).repos = m.repos
      ∧ ((handleBack m).1).issues = m.issues
      ∧ ((handleBack m).1).hasMorePages = m.hasMorePages := by
  intro m
  cases hm : m.currentScreen <;> simp [handleBack, backTarget, hm]

/-- C8: failures are non-fatal throughout `SearchHacktoberfestReposWithPage`.
The function always returns a `nil` error; a failed global-count query leaves
the estimate 0 and does not affect the repository list; a failed per-language
query merely skips that language (removing it from the outcome stream changes
nothing); and when every per-language query fails the repository list is
empty — still with a `nil` error. -/
theorem C8_failures_nonfatal :
    (∀ (ms : Int) (langs : List String) (mr : Nat) (now : Date)
        (g : Except String (Option Int))
        (qs : List (Except String (List RawRepo))),
      (searchHacktoberfestReposWithPage ms langs mr now g qs).error = none)
    ∧ (∀ (ms : Int) (langs : List String) (mr : Nat) (now : Date) (e : String)
        (qs : List (Except String (List RawRepo))),
      (searchHacktoberfestReposWithPage ms langs mr now (.error e) qs).totalAvailable = 0
      ∧ (searchHacktoberfestReposWithPage ms langs mr now (.error e) qs).repos =
          (searchHacktoberfestReposWithPage ms langs mr now (.ok none) qs).repos)
    ∧ (∀ (ms : Int) (langs : List String) (mr : Nat) (now : Date)
        (g : Except String (Option Int)) (e : String)
        (pre post : List (Except String (List RawRepo))),
      searchHacktoberfestReposWithPage ms langs mr now g (pre ++ .error e :: post) =
        searchHacktoberfestReposWithPage ms langs mr now g (pre ++ post))
    ∧ (∀ (ms : Int) (langs : List String) (mr : Nat) (now : Date)
        (g : Except String (Option Int))
        (qs : List (Except String (List RawRepo))),
      qs.all isErrOutcome = true →
        (searchHacktoberfestReposWithPage ms langs mr now g qs).repos = []) := by
  refine ⟨fun ms langs mr now g qs => rfl,
    fun ms langs mr now e qs => ⟨rfl, rfl⟩, ?_, ?_⟩
  · intro ms langs mr now g e pre post
    simp only [searchHacktoberfestReposWithPage]
    rw [searchLoop_skip]
  · intro ms langs mr now g qs h
    rw [search_repos_def, searchLoop_allErr _ _ _ _ qs [] h]
    rfl

/-- C8 witness: a run in which the global query and both per-language queries
fail returns the empty repository list (with estimate 0 and a `nil` error). -/
theorem C8_failures_nonfatal_witness :
    ([Except.error "a", Except.error "b"] :
        List (Except String (List RawRepo))).all isErrOutcome = true
    ∧ (searchHacktoberfestReposWithPage 20 ["go"] 5 ⟨2023, 10, 11⟩ (.error "x")
        [.error "a", .error "b"]).repos = [] :=
  ⟨by decide,
    C8_failures_nonfatal.2.2.2 20 ["go"] 5 ⟨2023, 10, 11⟩ (.error "x")
      [.error "a", .error "b"] (by decide)⟩

/-- C9: on the repository-list or issue-list screen with an empty visible
list, the enter key is a complete no-op outside loading: the model — screen,
selection, loading flag and all — is returned unchanged and no command is
dispatched. -/
theorem C9_confirm_empty_noop :
    ∀ m : Model, m.loading = false →
      ((m.currentScreen = .repoList ∧ m.repoList.items = []) ∨
       (m.currentScreen = .issueList ∧ m.issueList.items = [])) →
      update m (.key .enter) = (m, none) := by
  intro m hl hcase
  rcases hcase with ⟨hs, hi⟩ | ⟨hs, hi⟩ <;> simp [update, handleEnter, hl, hs, hi]

/-- C9 witness: the fresh model moved to the repository list screen (empty
list, not loading) is left exactly unchanged by enter. -/
theorem C9_confirm_empty_noop_witness :
    update { newModel ⟨["go"], 20, 15⟩ with currentScreen := ScreenName.repoList }
        (.key .enter)
      = ({ newModel ⟨["go"], 20, 15⟩ with currentScreen := ScreenName.repoList },
        none) :=
  C9_confirm_empty_noop _ (by decide) (Or.inl ⟨by decide, by decide⟩)

/-- C10: for every successful `GetRepositoryIssues` call, items carrying
pull-request links are excluded — the returned `Issues` list holds no pull
requests — and `TotalIssues` equals the length of that list, not the raw
upstream item count: two upstream items of which one is a pull request yield
`TotalIssues = 1`. -/
theorem C10_issues_no_prs :
    (∀ items : List RawIssue,
      ((getRepositoryIssues items).issues.all (fun i => !i.raw.isPullRequest)) = true
      ∧ (getRepositoryIssues items).totalIssues =
          (getRepositoryIssues items).issues.length)
    ∧ (getRepositoryIssues
        [⟨1, "i", [], some 0, false⟩, ⟨2, "p", [], some 0, true⟩]).totalIssues = 1 := by
  refine ⟨?_, by decide⟩
  intro items
  constructor
  · rw [List.all_eq_true]
    intro i hi
    have hn := processIssue_fold_noPR items ([], []) (by simp) i hi
    simp [hn]
  · rfl
